import Mathlib

/-!
Shallow embedding of the word-frequency ingest pipeline
(`parseTotal` and `runIngest` from the Go source) together with
theorems settling the specification claims.

Modelling conventions:
* Go strings are Lean `String` values; the character-level Go helpers
  (`strings.Split`, `strings.Contains`, `strings.ToLower`) are modelled
  on the underlying `List Char`, which coincides with their per-rune
  Go semantics.  Unicode lowercasing is modelled on the ASCII range
  (`Char.toLower`), the only range the claims exercise.
* Machine integers are modelled as `Int`/`Nat` with explicit
  reduction modulo `2 ^ 64` where Go performs `uint64` arithmetic.
* `float64` division `float64(count) / float64(total)` is modelled as
  exact division in `ℚ`.
* Rows handed to a per-source aggregator are the four-field records
  produced by the tab-delimited CSV reader; the gzip/CSV decoding layer
  is an external collaborator and a decoding failure surfaces as an
  error message of the worker, exactly like a parse failure.
-/

set_option autoImplicit false

deriving instance DecidableEq for Except

namespace WordFreq

/-- Errors produced by the pipeline: number-parse failures
(`strconv.ParseInt` syntax and range errors) and I/O-layer failures
(gzip or CSV read errors inside a worker). -/
inductive GoError where
  | malformed (num : String)
  | parseRange (num : String)
  | ioError (msg : String)
deriving Repr, DecidableEq

/-- Accumulates the value of a decimal digit string, failing on any
non-digit character.  Models the digit loop of `strconv.ParseUint`
in base 10. -/
def decDigits : List Char → Nat → Option Nat
  | [], acc => some acc
  | c :: cs, acc =>
    if c.isDigit then decDigits cs (acc * 10 + (c.toNat - 48)) else none

/-- Models `strconv.ParseInt(s, 10, bitSize)`: an optional sign followed
by a non-empty string of decimal digits, with the value required to fit
in a signed integer of width `bitSize`.  Go reports the range error at
the overflowing digit while this model checks the range after reading
all digits; both fail on exactly the same strings, only the choice
between the syntax and the range error on strings with both defects
differs, and no caller distinguishes the two. -/
def goParseInt (bitSize : Nat) (s : String) : Except GoError Int :=
  match s.data with
  | [] => .error (.malformed s)
  | c :: cs =>
    let digits := if c = '-' ∨ c = '+' then cs else c :: cs
    let neg := c = '-'
    match digits with
    | [] => .error (.malformed s)
    | _ =>
      match decDigits digits 0 with
      | none => .error (.malformed s)
      | some n =>
        let v : Int := if neg then -(n : Int) else (n : Int)
        if v < -(2 ^ (bitSize - 1) : Int) ∨ ((2 ^ (bitSize - 1) : Int) ≤ v) then
          .error (.parseRange s)
        else
          .ok v

/-- Splits a character list at every occurrence of the separator,
keeping empty segments.  Models `strings.Split` with a single-character
separator. -/
def splitChar (sep : Char) : List Char → List (List Char)
  | [] => [[]]
  | c :: rest =>
    if c = sep then
      [] :: splitChar sep rest
    else
      match splitChar sep rest with
      | h :: t => (c :: h) :: t
      | [] => [[c]]

/-- Models `strings.Split(s, sep)` for a one-character separator. -/
def goSplit (s : String) (sep : Char) : List String :=
  (splitChar sep s.data).map (fun l => ⟨l⟩)

/-- Models `strings.Contains(s, needle)` for a one-character needle:
whether the character occurs in the string. -/
def containsChar (s : String) (c : Char) : Bool :=
  decide (c ∈ s.data)

/-- Models `strings.Split(s, sep)[0]` for a one-character separator:
the part of the string before the first occurrence of the separator. -/
def splitHead (s : String) (sep : Char) : String :=
  ⟨s.data.takeWhile (fun c => c ≠ sep)⟩

/-- Models `strings.ToLower` restricted to the ASCII range: every
character is lowercased individually (`Char.toLower` maps the basic
latin uppercase letters and fixes everything else). -/
def goToLower (s : String) : String :=
  ⟨s.data.map Char.toLower⟩

/-- Reference year cutoff, the `minYear` constant of the source. -/
def minYear : Int := 1960

/-- Minimum-occurrence threshold, the `minOccurrences` constant of the
source. -/
def minOccurrences : Nat := 10000

/-- Size of the `uint64` value space. -/
def uint64Size : Nat := 2 ^ 64

/-- Models the Go conversion `uint64(v)` of an `int64` value: reduction
modulo `2 ^ 64`, yielding a natural number below `2 ^ 64`. -/
def uint64OfInt (v : Int) : Nat :=
  (v % (uint64Size : Int)).toNat

/-- Models the subfield access of one totals group: splitting the group
on commas, the group is skipped when it has fewer than four subfields
(`len(yearTotals) < 4`), and otherwise the first two subfields (year and
total) are used. -/
def totalsFields (field : String) : Option (String × String) :=
  match goSplit field ',' with
  | y :: t :: _ :: _ :: _ => some (y, t)
  | _ => none

/-- Loop body of `parseTotal`: walks the tab-separated fields of the
totals line, splitting each field on commas, skipping fields with fewer
than four comma-separated parts, parsing the year (16-bit) and, for
years at or above the cutoff, the total (64-bit), accumulating the
totals with `uint64` wrap-around addition. -/
def parseTotalLoop : List String → Nat → Except GoError Nat
  | [], acc => .ok acc
  | field :: rest, acc =>
    match totalsFields field with
    | none => parseTotalLoop rest acc
    | some (y, t) =>
      match goParseInt 16 y with
      | .error e => .error e
      | .ok year =>
        if year < minYear then
          parseTotalLoop rest acc
        else
          match goParseInt 64 t with
          | .error e => .error e
          | .ok total => parseTotalLoop rest ((acc + uint64OfInt total) % uint64Size)

/-- Models the `parseTotal` function of the source.  The argument is the
list of tab-separated fields returned by the CSV read of the single
totals line. -/
def parseTotal (totals : List String) : Except GoError Nat :=
  parseTotalLoop totals 0

/-- Spec-side definition for claim C2, following the specification
words: the contribution of one comma-separated group to the denominator
is its `total` component (widened to unsigned) when the group has at
least four subfields and its year parses and is at least the cutoff,
and zero otherwise. -/
def qualifyingTotal (field : String) : Nat :=
  match totalsFields field with
  | none => 0
  | some (y, t) =>
    match goParseInt 16 y with
    | .error _ => 0
    | .ok year =>
      if year < minYear then 0
      else
        match goParseInt 64 t with
        | .error _ => 0
        | .ok total => uint64OfInt total

/-- Spec-side definition for claim C2: the sum of the `total` components
over the qualifying groups, in `uint64` arithmetic. -/
def totalsSum (totals : List String) : Nat :=
  ((totals.map qualifyingTotal).sum) % uint64Size

/-- Well-formedness of one totals group: either it has fewer than four
comma-separated subfields (and is skipped), or its year parses as a
16-bit integer and, when the year is at or above the cutoff, its total
parses as a 64-bit integer. -/
def totalsGroupWF (field : String) : Bool :=
  match totalsFields field with
  | none => true
  | some (y, t) =>
    match goParseInt 16 y with
    | .error _ => false
    | .ok year => decide (year < minYear) || (goParseInt 64 t).isOk

/-- Well-formedness of a totals line: every group is well formed. -/
def totalsWF (totals : List String) : Bool :=
  totals.all totalsGroupWF

theorem uint64Size_pos : 0 < uint64Size := by
  unfold uint64Size
  exact Nat.pos_pow_of_pos 64 (by omega)

theorem parseTotalLoop_ok (totals : List String) :
    ∀ acc : Nat, acc < uint64Size → totalsWF totals = true →
      parseTotalLoop totals acc =
        .ok ((acc + (totals.map qualifyingTotal).sum) % uint64Size) := by
  induction totals with
  | nil =>
    intro acc hacc _
    simp [parseTotalLoop, Nat.mod_eq_of_lt hacc]
  | cons field rest ih =>
    intro acc hacc hwf
    rw [totalsWF, List.all_cons, Bool.and_eq_true] at hwf
    obtain ⟨hf, hrest⟩ := hwf
    rw [totalsGroupWF] at hf
    rw [List.map_cons, List.sum_cons, parseTotalLoop, qualifyingTotal]
    cases htf : totalsFields field with
    | none =>
      simpa using ih acc hacc hrest
    | some yt =>
      obtain ⟨y, t⟩ := yt
      rw [htf] at hf
      dsimp only at hf ⊢
      cases hy : goParseInt 16 y with
      | error e => rw [hy] at hf; simp at hf
      | ok year =>
        rw [hy] at hf
        dsimp only at hf ⊢
        by_cases hcut : year < minYear
        · rw [if_pos hcut, if_pos hcut]
          simpa using ih acc hacc hrest
        · rw [if_neg hcut, if_neg hcut]
          rw [decide_eq_false hcut, Bool.false_or] at hf
          cases ht : goParseInt 64 t with
          | error e => rw [ht] at hf; simp [Except.isOk, Except.toBool] at hf
          | ok total =>
            dsimp only
            rw [ih ((acc + uint64OfInt total) % uint64Size)
                  (Nat.mod_lt _ uint64Size_pos) hrest]
            congr 1
            rw [Nat.mod_add_mod]
            congr 1
            omega

theorem parseTotalLoop_error (totals : List String) :
    ∀ acc : Nat, totalsWF totals = false →
      ∃ e, parseTotalLoop totals acc = .error e := by
  induction totals with
  | nil => intro acc h; simp [totalsWF] at h
  | cons field rest ih =>
    intro acc hwf
    rw [totalsWF, List.all_cons] at hwf
    rw [parseTotalLoop]
    cases htf : totalsFields field with
    | none =>
      have hf : totalsGroupWF field = true := by rw [totalsGroupWF, htf]
      rw [hf, Bool.true_and] at hwf
      exact ih acc hwf
    | some yt =>
      obtain ⟨y, t⟩ := yt
      dsimp only
      cases hy : goParseInt 16 y with
      | error e => exact ⟨e, rfl⟩
      | ok year =>
        dsimp only
        by_cases hcut : year < minYear
        · rw [if_pos hcut]
          have hf : totalsGroupWF field = true := by
            simp [totalsGroupWF, htf, hy, hcut]
          rw [hf, Bool.true_and] at hwf
          exact ih acc hwf
        · rw [if_neg hcut]
          cases ht : goParseInt 64 t with
          | error e => exact ⟨e, rfl⟩
          | ok total =>
            have hf : totalsGroupWF field = true := by
              simp [totalsGroupWF, htf, hy, ht, Except.isOk, Except.toBool]
            rw [hf, Bool.true_and] at hwf
            exact ih _ hwf

/-- C2: for every valid totals input (the tab-separated groups of the
single totals line), `parseTotal` returns the sum of the `total`
components over exactly those groups that have at least four
comma-separated subfields and whose year is at least 1960, and it fails
with a parse error whenever some group with at least four subfields has
a year that does not parse as a 16-bit signed integer or, for a year at
or above the cutoff, a total that does not parse as a 64-bit signed
integer. -/
theorem parseTotal_sums_qualifying_groups (totals : List String) :
    (totalsWF totals = true → parseTotal totals = .ok (totalsSum totals)) ∧
    (totalsWF totals = false → ∃ e, parseTotal totals = .error e) := by
  constructor
  · intro h
    unfold parseTotal totalsSum
    simpa using parseTotalLoop_ok totals 0 uint64Size_pos h
  · intro h
    exact parseTotalLoop_error totals 0 h

/-- Witness for C2 at a concrete totals line: the example line of the
specification sums to 100, and a line with a malformed year in a
four-subfield group fails. -/
theorem parseTotal_sums_qualifying_groups_witness :
    parseTotal ["1960,100,5,2", "1950,50,3,1"] =
        .ok (totalsSum ["1960,100,5,2", "1950,50,3,1"]) ∧
    (∃ e, parseTotal ["1960,100,5,2", "abc,50,3,1"] = .error e) :=
  ⟨(parseTotal_sums_qualifying_groups _).1 (by decide),
   (parseTotal_sums_qualifying_groups _).2 (by decide)⟩

/-- One four-field record of a data source, as produced by the
tab-delimited CSV reader (`token`, `year`, `occurrenceCount`,
`volumeCount`), each field still a raw string. -/
structure Row where
  token : String
  year : String
  count : String
  volumes : String
deriving Repr, DecidableEq

/-- Local per-source aggregate (the `wordMap` of a worker): an
association list from canonical tokens to accumulated `uint64` counts.
The Go original is a hash map; the association list fixes the
first-insertion iteration order, while the Go map iteration order is
unspecified, so only claims about membership, not order, are read off
this model. -/
abbrev WordMap := List (String × Nat)

/-- Models `wordMap[word] += uint64(count)`: adds with `uint64`
wrap-around into the entry of the given word, creating the entry (from
the zero value) when it is absent. -/
def wmAdd : WordMap → String → Nat → WordMap
  | [], w, c => [(w, c % uint64Size)]
  | (k, v) :: rest, w, c =>
    if k = w then (k, (v + c) % uint64Size) :: rest
    else (k, v) :: wmAdd rest w c

/-- Looks up the accumulated count of a word in the local aggregate. -/
def wmLookup : WordMap → String → Option Nat
  | [], _ => none
  | (k, v) :: rest, w => if k = w then some v else wmLookup rest w

/-- Models `strings.ToLower(strings.Split(record[0], "_")[0])`: the
canonical token of a raw token is the part before the first underscore,
lowercased. -/
def canonicalToken (s : String) : String :=
  goToLower (splitHead s '_')

/-- Per-row processing of one worker of `runIngest`, in source order:
skip rows whose raw token contains a period; parse the year as a 16-bit
integer (fatal on failure); skip rows with year below the cutoff; parse
the occurrence count as a 64-bit integer (fatal on failure); accumulate
the count under the canonical token. -/
def processRow (m : WordMap) (r : Row) : Except GoError WordMap :=
  if containsChar r.token '.' then .ok m
  else
    match goParseInt 16 r.year with
    | .error e => .error e
    | .ok year =>
      if year < minYear then .ok m
      else
        match goParseInt 64 r.count with
        | .error e => .error e
        | .ok count => .ok (wmAdd m (canonicalToken r.token) (uint64OfInt count))

/-- The read loop of one worker: processes the rows of its source in
order, aborting on the first fatal error; end of stream is not an
error. -/
def aggLoop : WordMap → List Row → Except GoError WordMap
  | m, [] => .ok m
  | m, r :: rest =>
    match processRow m r with
    | .error e => .error e
    | .ok m2 => aggLoop m2 rest

/-- A token together with its relative frequency, the `wordStat` record
of the source (`float64` frequency modelled as an exact rational). -/
structure WordStat where
  word : String
  frequency : ℚ
deriving Repr, DecidableEq

/-- Post-loop emission of one worker: every accumulated token whose
count strictly exceeds `minOccurrences` becomes one `WordStat` with
frequency `count / totalWords`. -/
def emitStats (totalWords : Nat) (m : WordMap) : List WordStat :=
  (m.filter fun p => decide (minOccurrences < p.2)).map
    fun p => ⟨p.1, (p.2 : ℚ) / (totalWords : ℚ)⟩

/-- The whole life of one worker on an already-decoded source: run the
read loop from an empty aggregate, then emit the thresholded
statistics. -/
def runAggregator (totalWords : Nat) (rows : List Row) :
    Except GoError (List WordStat) :=
  (aggLoop [] rows).map (emitStats totalWords)

theorem processRow_period (m : WordMap) (r : Row)
    (h : containsChar r.token '.' = true) : processRow m r = .ok m := by
  rw [processRow, if_pos h]

theorem processRow_badYear (m : WordMap) (r : Row) (e : GoError)
    (hp : containsChar r.token '.' = false)
    (hy : goParseInt 16 r.year = .error e) : processRow m r = .error e := by
  rw [processRow, if_neg (by simp [hp]), hy]

theorem processRow_oldYear (m : WordMap) (r : Row) (year : Int)
    (hp : containsChar r.token '.' = false)
    (hy : goParseInt 16 r.year = .ok year) (hcut : year < minYear) :
    processRow m r = .ok m := by
  rw [processRow, if_neg (by simp [hp]), hy]
  dsimp only
  rw [if_pos hcut]

theorem processRow_badCount (m : WordMap) (r : Row) (year : Int) (e : GoError)
    (hp : containsChar r.token '.' = false)
    (hy : goParseInt 16 r.year = .ok year) (hcut : ¬year < minYear)
    (hc : goParseInt 64 r.count = .error e) : processRow m r = .error e := by
  rw [processRow, if_neg (by simp [hp]), hy]
  dsimp only
  rw [if_neg hcut, hc]

theorem processRow_accepted (m : WordMap) (r : Row) (year count : Int)
    (hp : containsChar r.token '.' = false)
    (hy : goParseInt 16 r.year = .ok year) (hcut : ¬year < minYear)
    (hc : goParseInt 64 r.count = .ok count) :
    processRow m r =
      .ok (wmAdd m (canonicalToken r.token) (uint64OfInt count)) := by
  rw [processRow, if_neg (by simp [hp]), hy]
  dsimp only
  rw [if_neg hcut, hc]

/-- C5: a row whose raw token contains a literal period character is
skipped without error and contributes nothing: processing it leaves the
local aggregate unchanged, and a whole run computes the same aggregate
as the run with all period rows removed. -/
theorem period_rows_contribute_nothing :
    (∀ (m : WordMap) (r : Row), containsChar r.token '.' = true →
      processRow m r = .ok m) ∧
    (∀ (m : WordMap) (rows : List Row),
      aggLoop m rows =
        aggLoop m (rows.filter fun r => !containsChar r.token '.')) := by
  refine ⟨processRow_period, ?_⟩
  intro m rows
  induction rows generalizing m with
  | nil => rfl
  | cons r rest ih =>
    rw [List.filter_cons]
    cases hp : containsChar r.token '.' with
    | true =>
      rw [aggLoop, processRow_period m r hp]
      simpa using ih m
    | false =>
      simp only [Bool.not_false, if_pos]
      rw [aggLoop, aggLoop]
      cases processRow m r with
      | error e => rfl
      | ok m2 => exact ih m2

/-- Witness for C5: a row whose token is `"U.S."` is skipped even
though its year and count fields are not parseable numbers. -/
theorem period_rows_contribute_nothing_witness :
    processRow [] ⟨"U.S.", "year?", "count?", "1"⟩ = .ok [] :=
  period_rows_contribute_nothing.1 [] ⟨"U.S.", "year?", "count?", "1"⟩ (by decide)

/-- C6: the per-row pipeline applies its checks in the source order.
Period rejection comes first, so a period row never produces an error
from its other fields; a malformed year on a period-free row is fatal;
a well-formed year below the cutoff skips the row before the count is
ever parsed, so such a row neither errors on its count field nor
contributes to the aggregate; a malformed count on a surviving row is
fatal; and a fully parsed surviving row accumulates its count under the
canonical token. -/
theorem row_processing_order (m : WordMap) (r : Row) :
    (containsChar r.token '.' = true → processRow m r = .ok m) ∧
    (∀ e, containsChar r.token '.' = false →
      goParseInt 16 r.year = .error e → processRow m r = .error e) ∧
    (∀ year, containsChar r.token '.' = false →
      goParseInt 16 r.year = .ok year → year < minYear →
      processRow m r = .ok m) ∧
    (∀ year e, containsChar r.token '.' = false →
      goParseInt 16 r.year = .ok year → ¬year < minYear →
      goParseInt 64 r.count = .error e → processRow m r = .error e) ∧
    (∀ year count, containsChar r.token '.' = false →
      goParseInt 16 r.year = .ok year → ¬year < minYear →
      goParseInt 64 r.count = .ok count →
      processRow m r =
        .ok (wmAdd m (canonicalToken r.token) (uint64OfInt count))) := by
  exact ⟨processRow_period m r,
    fun e => processRow_badYear m r e,
    fun year => processRow_oldYear m r year,
    fun year e => processRow_badCount m r year e,
    fun year count => processRow_accepted m r year count⟩

/-- Witness for C6: a period-free row with year 1950 is skipped even
though its count field is malformed, and a period-free row with a
malformed year is fatal. -/
theorem row_processing_order_witness :
    processRow [] ⟨"dog", "1950", "count?", "1"⟩ = .ok [] ∧
    processRow [] ⟨"dog", "year?", "60", "1"⟩ =
      .error (.malformed "year?") :=
  ⟨(row_processing_order [] ⟨"dog", "1950", "count?", "1"⟩).2.2.1 1950
      (by decide) (by decide) (by decide),
   (row_processing_order [] ⟨"dog", "year?", "60", "1"⟩).2.1
      (.malformed "year?") (by decide) (by decide)⟩

/-- C4: an accepted row accumulates its count under the canonical
token, the part of the raw token before the first underscore,
lowercased; consequently the raw tokens `"Dog_NOUN"` and `"dog"`
accumulate into the single canonical token `"dog"`. -/
theorem canonical_token_accumulation :
    (∀ (m : WordMap) (r : Row) (year count : Int),
      containsChar r.token '.' = false →
      goParseInt 16 r.year = .ok year → ¬year < minYear →
      goParseInt 64 r.count = .ok count →
      processRow m r =
        .ok (wmAdd m (goToLower (splitHead r.token '_')) (uint64OfInt count))) ∧
    splitHead "Dog_NOUN" '_' = "Dog" ∧
    goToLower "Dog" = "dog" ∧
    aggLoop [] [⟨"Dog_NOUN", "1960", "5", "1"⟩, ⟨"dog", "1960", "7", "1"⟩] =
      .ok [("dog", 12)] := by
  refine ⟨?_, by decide, by decide, by decide⟩
  intro m r year count hp hy hcut hc
  exact processRow_accepted m r year count hp hy hcut hc

/-- Witness for C4: the general clause applied to the row
`("Dog_NOUN", 1960, 5, 1)` on the empty aggregate. -/
theorem canonical_token_accumulation_witness :
    processRow [] ⟨"Dog_NOUN", "1960", "5", "1"⟩ = .ok [("dog", 5)] := by
  have h := canonical_token_accumulation.1 [] ⟨"Dog_NOUN", "1960", "5", "1"⟩
    1960 5 (by decide) (by decide) (by decide) (by decide)
  rw [h]
  decide

/-- Keys of a local aggregate, in insertion order. -/
def wmKeys (m : WordMap) : List String :=
  m.map Prod.fst

@[simp] theorem wmKeys_nil : wmKeys [] = [] := rfl

@[simp] theorem wmKeys_cons (k : String) (v : Nat) (rest : WordMap) :
    wmKeys ((k, v) :: rest) = k :: wmKeys rest := rfl

theorem wmKeys_wmAdd_mem (m : WordMap) (w : String) (c : Nat)
    (h : w ∈ wmKeys m) : wmKeys (wmAdd m w c) = wmKeys m := by
  induction m with
  | nil => simp at h
  | cons p rest ih =>
    obtain ⟨k, v⟩ := p
    rw [wmAdd]
    by_cases hk : k = w
    · rw [if_pos hk, wmKeys_cons, wmKeys_cons]
    · rw [if_neg hk]
      have hmem : w ∈ wmKeys rest := by
        rcases List.mem_cons.mp (by simpa using h) with h1 | h1
        · exact absurd h1.symm hk
        · exact h1
      rw [wmKeys_cons, wmKeys_cons, ih hmem]

theorem wmKeys_wmAdd_not_mem (m : WordMap) (w : String) (c : Nat)
    (h : w ∉ wmKeys m) : wmKeys (wmAdd m w c) = wmKeys m ++ [w] := by
  induction m with
  | nil => simp [wmAdd]
  | cons p rest ih =>
    obtain ⟨k, v⟩ := p
    rw [wmAdd]
    have hk : k ≠ w := by
      intro hkw
      exact h (by simp [hkw])
    rw [if_neg hk]
    have hrest : w ∉ wmKeys rest := fun hmem => h (by simp [hmem])
    rw [wmKeys_cons, wmKeys_cons, ih hrest, List.cons_append]

theorem nodup_wmKeys_wmAdd (m : WordMap) (w : String) (c : Nat)
    (h : (wmKeys m).Nodup) : (wmKeys (wmAdd m w c)).Nodup := by
  by_cases hmem : w ∈ wmKeys m
  · rw [wmKeys_wmAdd_mem m w c hmem]
    exact h
  · rw [wmKeys_wmAdd_not_mem m w c hmem]
    simpa [List.nodup_append] using ⟨h, hmem⟩

theorem processRow_ok_shape (m : WordMap) (r : Row) (m2 : WordMap)
    (h : processRow m r = .ok m2) :
    m2 = m ∨ (containsChar r.token '.' = false ∧
      ∃ c, m2 = wmAdd m (canonicalToken r.token) c) := by
  unfold processRow at h
  split at h
  · injection h with h
    exact Or.inl h.symm
  · rename_i hp
    split at h
    · exact absurd h (by simp)
    · split at h
      · injection h with h
        exact Or.inl h.symm
      · split at h
        · exact absurd h (by simp)
        · injection h with h
          exact Or.inr ⟨Bool.of_not_eq_true hp, _, h.symm⟩

theorem aggLoop_ok_nodup (rows : List Row) :
    ∀ m m2 : WordMap, aggLoop m rows = .ok m2 →
      (wmKeys m).Nodup → (wmKeys m2).Nodup := by
  induction rows with
  | nil =>
    intro m m2 h hnd
    rw [aggLoop] at h
    injection h with h
    rw [← h]
    exact hnd
  | cons r rest ih =>
    intro m m2 h hnd
    rw [aggLoop] at h
    cases hp : processRow m r with
    | error e => rw [hp] at h; exact absurd h (by simp)
    | ok m1 =>
      rw [hp] at h
      refine ih m1 m2 h ?_
      rcases processRow_ok_shape m r m1 hp with rfl | ⟨-, c, rfl⟩
      · exact hnd
      · exact nodup_wmKeys_wmAdd m _ c hnd

theorem wmLookup_none_iff (m : WordMap) (w : String) :
    wmLookup m w = none ↔ w ∉ wmKeys m := by
  induction m with
  | nil => simp [wmLookup, wmKeys]
  | cons p rest ih =>
    obtain ⟨k, v⟩ := p
    rw [wmLookup]
    by_cases hk : k = w
    · simp [hk, wmKeys]
    · simp [hk, wmKeys, Ne.symm hk] at ih ⊢
      exact ih

theorem emitStats_word_mem (d : Nat) (m : WordMap) (ws : WordStat)
    (h : ws ∈ emitStats d m) : ws.word ∈ wmKeys m := by
  rw [emitStats] at h
  obtain ⟨p, hp, hws⟩ := List.mem_map.mp h
  have hpm : p ∈ m := List.mem_of_mem_filter hp
  rw [← hws]
  exact List.mem_map.mpr ⟨p, hpm, rfl⟩

theorem emitStats_filter_not_mem (d : Nat) (m : WordMap) (w : String)
    (h : w ∉ wmKeys m) :
    (emitStats d m).filter (fun ws => decide (ws.word = w)) = [] := by
  rw [List.filter_eq_nil_iff]
  intro ws hws
  simp only [decide_eq_true_eq]
  intro hw
  exact h (hw ▸ emitStats_word_mem d m ws hws)

theorem emitStats_cons (d : Nat) (k : String) (v : Nat) (rest : WordMap) :
    emitStats d ((k, v) :: rest) =
      (if minOccurrences < v then [(⟨k, (v : ℚ) / (d : ℚ)⟩ : WordStat)] else [])
        ++ emitStats d rest := by
  rw [emitStats, emitStats, List.filter_cons]
  by_cases hv : minOccurrences < v
  · rw [if_pos (by simpa using hv), if_pos hv, List.map_cons, List.singleton_append]
  · rw [if_neg (by simpa using hv), if_neg hv, List.nil_append]

theorem emitStats_filter_some (d : Nat) (m : WordMap)
    (hnd : (wmKeys m).Nodup) (w : String) (c : Nat)
    (h : wmLookup m w = some c) :
    (emitStats d m).filter (fun ws => decide (ws.word = w)) =
      if minOccurrences < c then [⟨w, (c : ℚ) / (d : ℚ)⟩] else [] := by
  induction m with
  | nil => simp [wmLookup] at h
  | cons p rest ih =>
    obtain ⟨k, v⟩ := p
    rw [wmKeys_cons, List.nodup_cons] at hnd
    obtain ⟨hknd, hrestnd⟩ := hnd
    rw [wmLookup] at h
    rw [emitStats_cons, List.filter_append]
    by_cases hk : k = w
    · rw [if_pos hk] at h
      injection h with h
      subst h
      subst hk
      have hnone : (emitStats d rest).filter
          (fun ws => decide (ws.word = k)) = [] :=
        emitStats_filter_not_mem d rest k hknd
      rw [hnone, List.append_nil]
      by_cases hv : minOccurrences < v
      · rw [if_pos hv]
        simp [List.filter_cons]
      · rw [if_neg hv]
        simp
    · rw [if_neg hk] at h
      rw [ih hrestnd h]
      by_cases hv : minOccurrences < v
      · rw [if_pos hv]
        simp [List.filter_cons, hk]
      · rw [if_neg hv]
        simp [List.filter_cons]

/-- C3: after a worker exhausts its source without error, the emitted
statistics contain exactly the accumulated tokens whose summed count
strictly exceeds the minimum-occurrence threshold, each once, with
frequency `count / totalWords`; at the boundary, a summed count equal
to the threshold is not emitted and a summed count one above it is. -/
theorem threshold_emission (denom : Nat) (rows : List Row) (m : WordMap)
    (h : aggLoop [] rows = .ok m) :
    (∀ w c, wmLookup m w = some c →
      (emitStats denom m).filter (fun ws => decide (ws.word = w)) =
        if minOccurrences < c then [⟨w, (c : ℚ) / (denom : ℚ)⟩] else []) ∧
    (∀ w, wmLookup m w = none →
      (emitStats denom m).filter (fun ws => decide (ws.word = w)) = []) ∧
    emitStats denom [("at", minOccurrences)] = [] ∧
    emitStats denom [("it", minOccurrences + 1)] =
      [⟨"it", ((minOccurrences + 1 : Nat) : ℚ) / (denom : ℚ)⟩] := by
  have hnd : (wmKeys m).Nodup :=
    aggLoop_ok_nodup rows [] m h (by simp [wmKeys])
  refine ⟨fun w c hw => emitStats_filter_some denom m hnd w c hw,
    fun w hw =>
      emitStats_filter_not_mem denom m w ((wmLookup_none_iff m w).mp hw),
    ?_, ?_⟩
  · simp [emitStats]
  · simp [emitStats]

/-- Witness for C3: a source accumulating 20000 occurrences of `dog`
emits exactly one `dog` entry, with frequency 20000 / 100. -/
theorem threshold_emission_witness :
    (emitStats 100 [("dog", 20000)]).filter
        (fun ws => decide (ws.word = "dog")) =
      if minOccurrences < 20000 then [⟨"dog", ((20000 : Nat) : ℚ) / ((100 : Nat) : ℚ)⟩]
      else [] :=
  (threshold_emission 100 [⟨"dog", "1960", "20000", "1"⟩] [("dog", 20000)]
    (by decide)).1 "dog" 20000 (by decide)

theorem toNat_toLower_of_upper (c : Char) (h1 : 65 ≤ c.toNat)
    (h2 : c.toNat ≤ 90) : (Char.toLower c).toNat = c.toNat + 32 := by
  rw [Char.toLower]
  rw [if_pos ⟨h1, h2⟩]
  rw [Char.ofNat, dif_pos (Or.inl (by omega : c.toNat + 32 < 55296))]
  rfl

theorem toLower_of_not_upper (c : Char)
    (h : ¬(65 ≤ c.toNat ∧ c.toNat ≤ 90)) : Char.toLower c = c := by
  rw [Char.toLower]
  rw [if_neg h]

theorem toLower_toLower (c : Char) :
    Char.toLower (Char.toLower c) = Char.toLower c := by
  by_cases h : 65 ≤ c.toNat ∧ c.toNat ≤ 90
  · have := toNat_toLower_of_upper c h.1 h.2
    exact toLower_of_not_upper _ (by omega)
  · rw [toLower_of_not_upper c h]
    rw [toLower_of_not_upper c h]

theorem eq_of_toLower_eq (c d : Char)
    (hd : ¬(97 ≤ d.toNat ∧ d.toNat ≤ 122)) (h : Char.toLower c = d) :
    c = d := by
  by_cases hc : 65 ≤ c.toNat ∧ c.toNat ≤ 90
  · have hv := toNat_toLower_of_upper c hc.1 hc.2
    rw [h] at hv
    omega
  · rw [toLower_of_not_upper c hc] at h
    exact h

theorem goToLower_idem (s : String) : goToLower (goToLower s) = goToLower s := by
  have h : (s.data.map Char.toLower).map Char.toLower = s.data.map Char.toLower := by
    rw [List.map_map]
    apply List.map_congr_left
    intro c _
    exact toLower_toLower c
  exact congrArg String.mk h

/-- Invariant of the canonical tokens: lowercase (a fixpoint of the
lowercasing map) and free of the excluded characters. -/
def goodToken (w : String) : Prop :=
  goToLower w = w ∧ containsChar w '.' = false ∧ containsChar w '_' = false

theorem containsChar_eq_false_iff (s : String) (c : Char) :
    containsChar s c = false ↔ c ∉ s.data := by
  simp [containsChar]

theorem goodToken_canonicalToken (t : String)
    (hp : containsChar t '.' = false) : goodToken (canonicalToken t) := by
  have hsub : (splitHead t '_').data ⊆ t.data := by
    rw [splitHead]
    exact (List.takeWhile_sublist _).subset
  have hdotfree : '.' ∉ (splitHead t '_').data := by
    intro hmem
    exact (containsChar_eq_false_iff t '.').mp hp (hsub hmem)
  have hunderfree : '_' ∉ (splitHead t '_').data := by
    intro hmem
    rw [splitHead] at hmem
    have := List.mem_takeWhile_imp hmem
    simp at this
  refine ⟨goToLower_idem _, ?_, ?_⟩
  · rw [containsChar_eq_false_iff, canonicalToken, goToLower]
    intro hmem
    obtain ⟨c, hc, hlc⟩ := List.mem_map.mp hmem
    have : c = '.' := eq_of_toLower_eq c '.' (by decide) hlc
    exact hdotfree (this ▸ hc)
  · rw [containsChar_eq_false_iff, canonicalToken, goToLower]
    intro hmem
    obtain ⟨c, hc, hlc⟩ := List.mem_map.mp hmem
    have : c = '_' := eq_of_toLower_eq c '_' (by decide) hlc
    exact hunderfree (this ▸ hc)

theorem wmKeys_wmAdd_subset (m : WordMap) (w k : String) (c : Nat)
    (h : k ∈ wmKeys (wmAdd m w c)) : k ∈ wmKeys m ∨ k = w := by
  by_cases hmem : w ∈ wmKeys m
  · rw [wmKeys_wmAdd_mem m w c hmem] at h
    exact Or.inl h
  · rw [wmKeys_wmAdd_not_mem m w c hmem] at h
    rcases List.mem_append.mp h with h1 | h1
    · exact Or.inl h1
    · exact Or.inr (by simpa using h1)

theorem aggLoop_keys_good (rows : List Row) :
    ∀ m m2 : WordMap, aggLoop m rows = .ok m2 →
      (∀ k ∈ wmKeys m, goodToken k) → ∀ k ∈ wmKeys m2, goodToken k := by
  induction rows with
  | nil =>
    intro m m2 h hg
    rw [aggLoop] at h
    injection h with h
    exact h ▸ hg
  | cons r rest ih =>
    intro m m2 h hg
    rw [aggLoop] at h
    cases hp : processRow m r with
    | error e => rw [hp] at h; exact absurd h (by simp)
    | ok m1 =>
      rw [hp] at h
      refine ih m1 m2 h ?_
      rcases processRow_ok_shape m r m1 hp with rfl | ⟨hperiod, c, rfl⟩
      · exact hg
      · intro k hk
        rcases wmKeys_wmAdd_subset m _ k c hk with h1 | rfl
        · exact hg k h1
        · exact goodToken_canonicalToken r.token hperiod

/-- Corrected C8 (the raw claim fails: the token can be empty): every
`WordStat` emitted by a worker has a token that is lowercase and free
of the excluded character classes (it contains no period and no
underscore); non-emptiness is not guaranteed. -/
theorem emitted_token_shape (denom : Nat) (rows : List Row)
    (stats : List WordStat) (h : runAggregator denom rows = .ok stats) :
    ∀ ws ∈ stats, goToLower ws.word = ws.word ∧
      containsChar ws.word '.' = false ∧ containsChar ws.word '_' = false := by
  rw [runAggregator] at h
  cases ha : aggLoop [] rows with
  | error e => rw [ha] at h; exact absurd h (by simp [Except.map])
  | ok m =>
    rw [ha] at h
    have hstats : stats = emitStats denom m := by
      rw [Except.map] at h
      injection h with h
      exact h.symm
    subst hstats
    intro ws hws
    have hkey : ws.word ∈ wmKeys m := emitStats_word_mem denom m ws hws
    exact aggLoop_keys_good rows [] m ha (by simp) ws.word hkey

/-- Witness for the corrected C8: the single emitted statistic of a
small run has a lowercase, period-free, underscore-free token. -/
theorem emitted_token_shape_witness :
    goToLower "dog" = "dog" ∧
    containsChar "dog" '.' = false ∧ containsChar "dog" '_' = false := by
  have hagg : aggLoop [] [⟨"Dog_NOUN", "1960", "20000", "1"⟩] =
      .ok [("dog", 20000)] := by decide
  have hrun : runAggregator 100 [⟨"Dog_NOUN", "1960", "20000", "1"⟩] =
      .ok [⟨"dog", (20000 : ℚ) / (100 : ℚ)⟩] := by
    rw [runAggregator, hagg, Except.map]
    simp [emitStats, minOccurrences]
  exact emitted_token_shape 100 _ _ hrun
    ⟨"dog", (20000 : ℚ) / (100 : ℚ)⟩ (by simp)

/-- Counterexample to C8 as stated: a source whose only row carries the
raw token `"_X"` (no period, so the row is accepted) accumulates under
the canonical token `""`, and with a count above the threshold the
worker emits a `WordStat` whose token is empty. -/
theorem emitted_token_nonempty_cex :
    runAggregator 100 [⟨"_X", "1960", "10001", "1"⟩] =
      .ok [⟨"", (10001 : ℚ) / (100 : ℚ)⟩] ∧
    ¬(∀ ws ∈ ([⟨"", (10001 : ℚ) / (100 : ℚ)⟩] : List WordStat),
        ws.word ≠ "") := by
  constructor
  · have hagg : aggLoop [] [⟨"_X", "1960", "10001", "1"⟩] =
        .ok [("", 10001)] := by decide
    rw [runAggregator, hagg, Except.map]
    simp [emitStats, minOccurrences]
  · intro h
    exact h ⟨"", (10001 : ℚ) / (100 : ℚ)⟩ (by simp) rfl

/-- The comparator handed to `sort.Slice` in `runIngest`:
`wordStats[i].frequency > wordStats[j].frequency`.  It compares only
frequencies; the token is not consulted. -/
def rankLess (a b : WordStat) : Bool :=
  decide (b.frequency < a.frequency)

/-- Contract of `sort.Slice` with the `rankLess` comparator: an
admissible Ranker output is any permutation of the merged collection in
which no entry is `rankLess` than an earlier one.  The relative order
of entries the comparator cannot distinguish (equal frequencies) is
unspecified, so the Ranker is a relation rather than a function. -/
def RankerOutput (inp out : List WordStat) : Prop :=
  inp.Perm out ∧ out.Pairwise (fun a b => rankLess b a = false)

/-- Corrected C1 (the raw claim fails: no secondary key is applied):
every admissible Ranker output is a permutation of the merged
collection ordered by frequency descending, an admissible output
always exists, but entries with equal frequency appear in an
unspecified order. -/
theorem ranker_sorts_by_frequency_descending (inp out : List WordStat)
    (h : RankerOutput inp out) :
    (∀ (i j : Fin out.length), (i : Nat) < (j : Nat) →
      (out.get j).frequency ≤ (out.get i).frequency) ∧
    inp.Perm out ∧
    RankerOutput inp (inp.mergeSort fun a b => !rankLess b a) := by
  obtain ⟨hperm, hsorted⟩ := h
  refine ⟨?_, hperm, ?_, ?_⟩
  · intro i j hij
    have hp := List.pairwise_iff_get.mp hsorted i j hij
    rw [rankLess] at hp
    simpa using hp
  · exact (List.mergeSort_perm inp _).symm
  · have hs := @List.sorted_mergeSort WordStat (fun a b => !rankLess b a)
      (fun a b c hab hbc => by
        simp only [rankLess, Bool.not_eq_true', decide_eq_false_iff_not,
          not_lt] at hab hbc ⊢
        exact le_trans hbc hab)
      (fun a b => by
        simp only [rankLess, Bool.not_eq_true', decide_eq_false_iff_not,
          not_lt, Bool.or_eq_true]
        exact le_total b.frequency a.frequency)
      inp
    exact hs.imp fun hab => by simpa using hab

/-- Witness for the corrected C1 at a concrete collection: the
descending list is an admissible output of the two-element merged
collection, and sorting that collection produces an admissible
output. -/
theorem ranker_sorts_by_frequency_descending_witness :
    (([⟨"b", (1 : ℚ)⟩, ⟨"a", 2⟩] : List WordStat)).Perm
        [⟨"a", (2 : ℚ)⟩, ⟨"b", 1⟩] ∧
    RankerOutput [⟨"b", (1 : ℚ)⟩, ⟨"a", 2⟩]
      (List.mergeSort [⟨"b", (1 : ℚ)⟩, ⟨"a", 2⟩] fun a b => !rankLess b a) := by
  have h := ranker_sorts_by_frequency_descending
    [⟨"b", (1 : ℚ)⟩, ⟨"a", 2⟩] [⟨"a", (2 : ℚ)⟩, ⟨"b", 1⟩]
    ⟨by decide, by decide⟩
  exact ⟨h.2.1, h.2.2⟩

/-- Counterexample to C1 as stated: for the merged collection holding
tokens `"b"` and `"a"` at the same frequency, the unchanged list is an
admissible Ranker output although its equal-frequency entries are not
in ascending token order, and the reversed list is admissible too, so
the output is not a deterministic function of the input multiset. -/
theorem ranker_ties_counterexample :
    RankerOutput [⟨"b", (1 : ℚ)⟩, ⟨"a", 1⟩] [⟨"b", (1 : ℚ)⟩, ⟨"a", 1⟩] ∧
    RankerOutput [⟨"b", (1 : ℚ)⟩, ⟨"a", 1⟩] [⟨"a", (1 : ℚ)⟩, ⟨"b", 1⟩] ∧
    ([⟨"b", (1 : ℚ)⟩, ⟨"a", 1⟩] : List WordStat) ≠
      [⟨"a", (1 : ℚ)⟩, ⟨"b", 1⟩] ∧
    ¬([⟨"b", (1 : ℚ)⟩, ⟨"a", 1⟩] : List WordStat).Pairwise
        (fun a b => a.frequency = b.frequency → ¬b.word.data < a.word.data) :=
  ⟨⟨by decide, by decide⟩, ⟨by decide, by decide⟩, by decide, by decide⟩

/-- One message a worker can hand to the fan-in collector over its
channels: a `WordStat` on the `words` channel, an error on the `errs`
channel, or a completion signal on the `done` channel. -/
inductive Msg where
  | word (ws : WordStat)
  | err (e : GoError)
  | done
deriving Repr, DecidableEq

/-- The complete message sequence of one worker of `runIngest` on an
already-decoded source: on a fatal row error the worker sends that one
error and stops; otherwise it sends every thresholded statistic and
then one completion signal. -/
def workerMsgs (totalWords : Nat) (rows : List Row) : List Msg :=
  match aggLoop [] rows with
  | .error e => [.err e]
  | .ok m => (emitStats totalWords m).map .word ++ [.done]

/-- The select loop of `runIngest`: processes the arriving messages in
order, appending received statistics, returning `([], the error)` on
the first error, and returning the accumulated collection after the
live-worker counter (a Go `int`) reaches zero.  `none` models a run of
the loop that never returns because no further message arrives. -/
def collectLoop : Int → List WordStat → List Msg → Option (List WordStat × Option GoError)
  | _, _, [] => none
  | n, acc, .word w :: rest => collectLoop n (acc ++ [w]) rest
  | _, _, .err e :: _ => some ([], some e)
  | n, acc, .done :: rest =>
    if n - 1 = 0 then some (acc, none) else collectLoop (n - 1) acc rest

/-- The first error in a message trace, the one the select loop
returns. -/
def firstErr : List Msg → Option GoError
  | [] => none
  | .err e :: _ => some e
  | .word _ :: rest => firstErr rest
  | .done :: rest => firstErr rest

/-- Tests for the completion message. -/
def isDone : Msg → Bool
  | .word _ => false
  | .err _ => false
  | .done => true

/-- Tests for an error message. -/
def isErr : Msg → Bool
  | .word _ => false
  | .err _ => true
  | .done => false

/-- Whether a trace is an interleaving of the given per-worker message
sequences: each step consumes the head of one worker sequence, and the
trace ends exactly when every sequence is exhausted.  This models the
arrival orders the select loop can observe from concurrently running
workers. -/
def isInterleaving : List (List Msg) → List Msg → Bool
  | ws, [] => ws.all List.isEmpty
  | ws, m :: t =>
    (List.range ws.length).any fun i =>
      match ws[i]? with
      | some (m2 :: rest2) => decide (m2 = m) && isInterleaving (ws.set i rest2) t
      | _ => false

theorem countP_sum_set (p : Msg → Bool) :
    ∀ (ws : List (List Msg)) (i : Nat) (m : Msg) (rest2 : List Msg),
      ws[i]? = some (m :: rest2) →
      (ws.map (fun w => w.countP p)).sum =
        ((ws.set i rest2).map (fun w => w.countP p)).sum +
          (if p m then 1 else 0) := by
  intro ws
  induction ws with
  | nil => intro i m rest2 h; simp at h
  | cons w ws ih =>
    intro i m rest2 h
    cases i with
    | zero =>
      rw [List.getElem?_cons_zero] at h
      injection h with h
      subst h
      simp [List.countP_cons]
      omega
    | succ i =>
      rw [List.getElem?_cons_succ] at h
      have := ih i m rest2 h
      simp only [List.set_cons_succ, List.map_cons, List.sum_cons] at *
      omega

theorem isInterleaving_countP (p : Msg → Bool) :
    ∀ (t : List Msg) (ws : List (List Msg)), isInterleaving ws t = true →
      t.countP p = (ws.map (fun w => w.countP p)).sum := by
  intro t
  induction t with
  | nil =>
    intro ws h
    rw [isInterleaving] at h
    rw [List.countP_nil]
    symm
    apply List.sum_eq_zero
    intro x hx
    obtain ⟨w, hw, rfl⟩ := List.mem_map.mp hx
    have hempty := List.all_eq_true.mp h w hw
    rw [List.isEmpty_iff] at hempty
    rw [hempty, List.countP_nil]
  | cons m t ih =>
    intro ws h
    rw [isInterleaving, List.any_eq_true] at h
    obtain ⟨i, hi, hmatch⟩ := h
    rw [List.mem_range] at hi
    cases hwsi : ws[i]? with
    | none => rw [hwsi] at hmatch; simp at hmatch
    | some l =>
      cases l with
      | nil => rw [hwsi] at hmatch; simp at hmatch
      | cons m2 rest2 =>
        rw [hwsi] at hmatch
        simp only [Bool.and_eq_true, decide_eq_true_eq] at hmatch
        obtain ⟨rfl, hrec⟩ := hmatch
        have hIH := ih (ws.set i rest2) hrec
        have hsum := countP_sum_set p ws i m2 rest2 hwsi
        rw [List.countP_cons, hIH]
        omega

theorem countP_isErr_pos_firstErr :
    ∀ t : List Msg, 0 < t.countP isErr → ∃ e, firstErr t = some e := by
  intro t
  induction t with
  | nil => intro h; simp at h
  | cons m t ih =>
    intro h
    cases m with
    | word w =>
      rw [List.countP_cons, show isErr (Msg.word w) = false from rfl,
        if_neg (by decide), Nat.add_zero] at h
      exact ih h
    | err e => exact ⟨e, rfl⟩
    | done =>
      rw [List.countP_cons, show isErr Msg.done = false from rfl,
        if_neg (by decide), Nat.add_zero] at h
      exact ih h

theorem collectLoop_first_error :
    ∀ (t : List Msg) (n : Int) (acc : List WordStat) (e : GoError),
      firstErr t = some e → ((t.countP isDone : Nat) : Int) < n →
      collectLoop n acc t = some ([], some e) := by
  intro t
  induction t with
  | nil => intro n acc e h _; rw [firstErr] at h; exact absurd h (by simp)
  | cons m t ih =>
    intro n acc e hfe hcount
    cases m with
    | word w =>
      rw [firstErr] at hfe
      rw [List.countP_cons] at hcount
      simp [isDone] at hcount
      rw [collectLoop]
      exact ih n (acc ++ [w]) e hfe (by exact_mod_cast hcount)
    | err e2 =>
      rw [firstErr] at hfe
      injection hfe with hfe
      subst hfe
      rfl
    | done =>
      rw [firstErr] at hfe
      rw [List.countP_cons] at hcount
      simp [isDone] at hcount
      rw [collectLoop]
      have hne : ¬n - 1 = 0 := by omega
      rw [if_neg hne]
      exact ih (n - 1) acc e hfe (by omega)

theorem workerMsgs_countP_done_le (d : Nat) (rows : List Row) :
    (workerMsgs d rows).countP isDone ≤ 1 := by
  rw [workerMsgs]
  cases aggLoop [] rows with
  | error e => simp [List.countP_cons, isDone]
  | ok m =>
    dsimp only
    rw [List.countP_append]
    have h0 : ((emitStats d m).map Msg.word).countP isDone = 0 := by
      rw [List.countP_eq_zero]
      intro a ha
      obtain ⟨ws, _, rfl⟩ := List.mem_map.mp ha
      simp [isDone]
    rw [h0]
    simp [List.countP_cons, isDone]

theorem workerMsgs_bad_counts (d : Nat) (rows : List Row)
    (h : (aggLoop [] rows).isOk = false) :
    (workerMsgs d rows).countP isDone = 0 ∧
      0 < (workerMsgs d rows).countP isErr := by
  rw [workerMsgs]
  cases ha : aggLoop [] rows with
  | error e =>
    constructor <;> simp [List.countP_cons, isDone, isErr]
  | ok m =>
    rw [ha] at h
    simp [Except.isOk, Except.toBool] at h

theorem sum_workerMsgs_done_le (d : Nat) (sources : List (List Row)) :
    ((sources.map (workerMsgs d)).map (fun w => w.countP isDone)).sum ≤
      sources.length := by
  induction sources with
  | nil => simp
  | cons rows rest ih =>
    simp only [List.map_cons, List.sum_cons, List.length_cons]
    have h1 := workerMsgs_countP_done_le d rows
    omega

theorem sum_workerMsgs_done_lt (d : Nat) (sources : List (List Row))
    (h : sources.any (fun rows => !(aggLoop [] rows).isOk) = true) :
    ((sources.map (workerMsgs d)).map (fun w => w.countP isDone)).sum <
      sources.length := by
  induction sources with
  | nil => simp at h
  | cons rows rest ih =>
    rw [List.any_cons, Bool.or_eq_true] at h
    simp only [List.map_cons, List.sum_cons, List.length_cons]
    rcases h with hh | ht
    · have h0 := (workerMsgs_bad_counts d rows (by simpa using hh)).1
      have hle := sum_workerMsgs_done_le d rest
      omega
    · have hlt := ih ht
      have h1 := workerMsgs_countP_done_le d rows
      omega

theorem sum_workerMsgs_err_pos (d : Nat) (sources : List (List Row))
    (h : sources.any (fun rows => !(aggLoop [] rows).isOk) = true) :
    0 < ((sources.map (workerMsgs d)).map (fun w => w.countP isErr)).sum := by
  induction sources with
  | nil => simp at h
  | cons rows rest ih =>
    rw [List.any_cons, Bool.or_eq_true] at h
    simp only [List.map_cons, List.sum_cons]
    rcases h with hh | ht
    · have hpos := (workerMsgs_bad_counts d rows (by simpa using hh)).2
      omega
    · have hpos := ih ht
      omega

/-- C7: whenever some worker fails (its read loop hits a fatal error),
every arrival order of the worker messages makes the select loop of
`runIngest` return the first error of the trace paired with an empty
result collection: no partial results, not even from sources that
completed successfully, reach the caller. -/
theorem fanin_fails_atomically (denom : Nat) (sources : List (List Row))
    (trace : List Msg)
    (hbad : sources.any (fun rows => !(aggLoop [] rows).isOk) = true)
    (hint : isInterleaving (sources.map (workerMsgs denom)) trace = true) :
    ∃ e, firstErr trace = some e ∧
      collectLoop ((sources.length : Nat) : Int) [] trace =
        some ([], some e) := by
  have hdone := isInterleaving_countP isDone trace
    (sources.map (workerMsgs denom)) hint
  have herr := isInterleaving_countP isErr trace
    (sources.map (workerMsgs denom)) hint
  have hcnt : trace.countP isDone < sources.length := by
    rw [hdone]
    exact sum_workerMsgs_done_lt denom sources hbad
  have herrpos : 0 < trace.countP isErr := by
    rw [herr]
    exact sum_workerMsgs_err_pos denom sources hbad
  obtain ⟨e, hfe⟩ := countP_isErr_pos_firstErr trace herrpos
  refine ⟨e, hfe, ?_⟩
  exact collectLoop_first_error trace _ [] e hfe (by exact_mod_cast hcnt)

/-- Witness for C7: a single source whose row has the unparsable year
`"bad"`; its worker trace is the one error message, and the collector
returns that error with the empty collection. -/
theorem fanin_fails_atomically_witness :
    ∃ e, firstErr (workerMsgs 100 [⟨"dog", "bad", "60", "1"⟩]) = some e ∧
      collectLoop 1 [] (workerMsgs 100 [⟨"dog", "bad", "60", "1"⟩]) =
        some ([], some e) :=
  fanin_fails_atomically 100 [[⟨"dog", "bad", "60", "1"⟩]]
    (workerMsgs 100 [⟨"dog", "bad", "60", "1"⟩]) (by decide) (by decide)

/-- C10: with zero sources no worker is launched, so no message can
ever arrive (the only interleaving of zero message sequences is the
empty trace), and the select loop of `runIngest` never reaches a
completion or error branch: it never returns. -/
theorem collector_never_returns_without_sources (totalWords : Nat)
    (trace : List Msg)
    (hint : isInterleaving
      (([] : List (List Row)).map (workerMsgs totalWords)) trace = true) :
    collectLoop ((([] : List (List Row)).length : Nat) : Int) [] trace =
      none := by
  cases trace with
  | nil => rfl
  | cons m t =>
    rw [List.map_nil, isInterleaving] at hint
    simp at hint

/-- Witness for C10: the empty trace is the interleaving of zero worker
sequences, and on it the select loop yields no result. -/
theorem collector_never_returns_without_sources_witness :
    collectLoop 0 [] [] = none :=
  collector_never_returns_without_sources 100 [] (by decide)

/-- Counterexample to C9 as stated: on the example input the
denominator is 100 and `dog` aggregates to 110, but the
minimum-occurrence threshold of the code is the constant 10000, not
100, so the worker emits nothing: `dog` does not appear in the output
with frequency 1.1 (or at all). -/
theorem example_run_counterexample :
    parseTotal ["1960,100,5,2", "1950,50,3,1"] = .ok 100 ∧
    aggLoop [] [⟨"dog", "1960", "60", "1"⟩, ⟨"dog", "1961", "50", "1"⟩] =
      .ok [("dog", 110)] ∧
    runAggregator 100
        [⟨"dog", "1960", "60", "1"⟩, ⟨"dog", "1961", "50", "1"⟩] = .ok [] ∧
    runAggregator 100
        [⟨"dog", "1960", "60", "1"⟩, ⟨"dog", "1961", "50", "1"⟩] ≠
      .ok [⟨"dog", (11 : ℚ) / 10⟩] := by
  refine ⟨by decide, by decide, by decide, ?_⟩
  intro h
  rw [show runAggregator 100
      [⟨"dog", "1960", "60", "1"⟩, ⟨"dog", "1961", "50", "1"⟩] =
      .ok ([] : List WordStat) from by decide] at h
  injection h with h
  exact absurd h (by simp)

/-- Amended C9: the totals part of the example behaves as stated
(denominator 100) and `dog` indeed aggregates to count 110, but since
the threshold constant of the code is 10000 and 110 does not exceed
it, `dog` is not emitted: the worker sends only its completion signal
and the whole run returns the empty collection. -/
theorem example_run_amended :
    parseTotal ["1960,100,5,2", "1950,50,3,1"] = .ok 100 ∧
    aggLoop [] [⟨"dog", "1960", "60", "1"⟩, ⟨"dog", "1961", "50", "1"⟩] =
      .ok [("dog", 110)] ∧
    110 ≤ minOccurrences ∧
    runAggregator 100
        [⟨"dog", "1960", "60", "1"⟩, ⟨"dog", "1961", "50", "1"⟩] = .ok [] ∧
    workerMsgs 100 [⟨"dog", "1960", "60", "1"⟩, ⟨"dog", "1961", "50", "1"⟩] =
      [.done] ∧
    collectLoop 1 []
        (workerMsgs 100
          [⟨"dog", "1960", "60", "1"⟩, ⟨"dog", "1961", "50", "1"⟩]) =
      some ([], none) :=
  ⟨by decide, by decide, by decide, by decide, by decide, by decide⟩

end WordFreq
